import Mathlib

/-!
Shallow embedding of the PFTS auto-overlap algorithm
(`pcdsdevices/lasers/autooverlap.py`, class `PFTSAutoOverlap`).

Numeric values (waveform samples, delay positions, thresholds) are modelled
as rationals, with exact arithmetic standing in for the floating point of
the source.  External collaborators (the EPICS signals and the delay motor)
are modelled as explicit inputs:

* a waveform source becomes a list of samples (`List ℚ`), and an
  acquisition that depends on the motor position becomes a function
  `ℚ → List ℚ` from position to the acquired (averaged) waveform;
* the delay motor becomes explicit state passing: the current position is a
  `ℚ` threaded through the loops, and every commanded position is also
  collected in a trace list so that theorems can speak about all motion;
* a Python `while` loop becomes fuel-indexed recursion returning `none`
  when the fuel runs out (the source loops have no such bound, so theorems
  are stated about runs that terminate);
* a raised Python exception becomes `Except.error` with a value of the
  error type `AutoErr` below.
-/

/-- Error conditions of the source, one constructor per distinct `raise`
site (plus `valueShort` for the `ValueError` in `_get_signal`). -/
inductive AutoErr where
  /-- `_get_signal`: the captured array is shorter than the useful length. -/
  | valueShort
  /-- `optimize_monitor`: the delay motor starts outside the search range. -/
  | outOfBounds
  /-- `_find_zero_error`: the zero estimate is outside the measured range. -/
  | zeroOutOfRange
  /-- `_find_zero_error`: the zero estimate is negative. -/
  | zeroNegative
  /-- `auto_overlap`: the 3-attempt monitor-optimization budget ran out. -/
  | monitorFail
deriving DecidableEq

/-- Python's `max` over a non-empty list (used by `_test_monitor`). -/
def pymax (xs : List ℚ) : ℚ := xs.foldl max (xs.headD 0)

/-- `PFTSAutoOverlap._test_monitor`: the maximum of the waveform must
strictly exceed the threshold. -/
def _test_monitor (signal : List ℚ) (threshold : ℚ) : Bool :=
  decide (threshold < pymax signal)

/-- `PFTSAutoOverlap._get_signal`: truncate a captured array to its useful
length, failing when the array is shorter than that length. -/
def _get_signal (sig : List ℚ) (length : ℕ) : Except AutoErr (List ℚ) :=
  if sig.length < length then Except.error AutoErr.valueShort
  else Except.ok (sig.take length)

/-- Element-wise mean of a list of equal-length waveforms, as computed by
`np.mean(list(zip(*waveforms)), axis=1)`.  The `zip` truncates to the
shortest list; all lists passed here have length `len` (they come out of
`_get_signal`), so taking the first `len` columns is exact.  The source
assumes at least one waveform (`navg ≥ 1`); `numpy` raises otherwise. -/
def meanColumns (waveforms : List (List ℚ)) (len : ℕ) : List ℚ :=
  (List.range len).map fun i =>
    ((waveforms.map fun w => w.getD i 0).sum) / waveforms.length

/-- Acquisition loop of `_average_signal`: one `_get_signal` call per
reading, stopping at the first failure (the first raised `ValueError`). -/
def getSignals (readings : List (List ℚ)) (len : ℕ) :
    Except AutoErr (List (List ℚ)) :=
  match readings with
  | [] => Except.ok []
  | r :: rs =>
    match _get_signal r len with
    | Except.error e => Except.error e
    | Except.ok w =>
      match getSignals rs len with
      | Except.error e => Except.error e
      | Except.ok ws => Except.ok (w :: ws)

/-- `PFTSAutoOverlap._average_signal`: capture `navg` readings (here the
list `readings`, one entry per loop iteration), validate and truncate each
via `_get_signal`, and return the element-wise mean. -/
def _average_signal (readings : List (List ℚ)) (len : ℕ) :
    Except AutoErr (List ℚ) :=
  match getSignals readings len with
  | Except.error e => Except.error e
  | Except.ok waveforms => Except.ok (meanColumns waveforms len)

/-- Backward sweep of `optimize_monitor` (`direction = -1`), plus the
restore-and-return-False epilogue.  `env pos` is the averaged monitor
waveform acquired with the motor at `pos`; `trace` accumulates every
position the motor is commanded to. -/
def omBackward (env : ℚ → List ℚ) (low stepsize threshold motorStart : ℚ) :
    ℕ → ℚ → List ℚ → Option (Bool × ℚ × List ℚ)
  | 0, _, _ => none
  | fuel+1, pos, trace =>
    if low < pos - stepsize then
      if _test_monitor (env pos) threshold then some (true, pos, trace)
      else omBackward env low stepsize threshold motorStart fuel
        (pos - stepsize) (trace ++ [pos - stepsize])
    else some (false, motorStart, trace ++ [motorStart])

/-- Forward sweep of `optimize_monitor` (`direction = 1`); when the guard
`pos + stepsize < high` fails it falls through to the backward sweep. -/
def omForward (env : ℚ → List ℚ) (low high stepsize threshold motorStart : ℚ) :
    ℕ → ℚ → List ℚ → Option (Bool × ℚ × List ℚ)
  | 0, _, _ => none
  | fuel+1, pos, trace =>
    if pos + stepsize < high then
      if _test_monitor (env pos) threshold then some (true, pos, trace)
      else omForward env low high stepsize threshold motorStart fuel
        (pos + stepsize) (trace ++ [pos + stepsize])
    else omBackward env low stepsize threshold motorStart fuel pos trace

/-- `PFTSAutoOverlap.optimize_monitor`.  The result on success is
`(found, finalPosition, trace)`; `Except.error .outOfBounds` is the
`ValueError` raised when the starting position is not strictly inside
`(low, high)`; `Option` is only the fuel bound of the two `while` loops. -/
def optimize_monitor (env : ℚ → List ℚ) (low high stepsize threshold : ℚ)
    (fuel : ℕ) (motorStart : ℚ) :
    Except AutoErr (Option (Bool × ℚ × List ℚ)) :=
  if motorStart < high ∧ low < motorStart then
    Except.ok (omForward env low high stepsize threshold motorStart fuel
      motorStart [motorStart])
  else Except.error AutoErr.outOfBounds

/-- Omitted here: `np.average` of a list (used for the baseline). -/
def pyAverage (xs : List ℚ) : ℚ := xs.sum / xs.length

/-- Trapezoidal-rule integral with unit sample spacing, `np.trapz`. -/
def np_trapz : List ℚ → ℚ
  | a :: b :: rest => (a + b) / 2 + np_trapz (b :: rest)
  | _ => 0

/-- `PFTSAutoOverlap._integrate_error`, applied to the averaged error
waveform `avg` (the source obtains `avg` from `_average_signal` on the
error channel): subtract the mean of the first `nbaseline` samples from
every sample, then integrate by the trapezoidal rule. -/
def _integrate_error (avg : List ℚ) (nbaseline : ℕ) : ℚ :=
  let baseline := pyAverage (avg.take nbaseline)
  np_trapz (avg.map fun s => s - baseline)

/-- One picosecond-equivalent delay unit, the literal `1e-12` of the
source. -/
def pico : ℚ := 1 / 1000000000000

/-- Scan loop of `_measure_error`: while the position is below `scanEnd`,
record the position, record one integrated error measurement, and advance
by `stepsize`. -/
def measureLoop (avgAt : ℚ → List ℚ) (nbaseline : ℕ) (stepsize scanEnd : ℚ) :
    ℕ → ℚ → List ℚ → List ℚ → Option (List ℚ × List ℚ)
  | 0, _, _, _ => none
  | fuel+1, pos, delays, errors =>
    if pos < scanEnd then
      measureLoop avgAt nbaseline stepsize scanEnd fuel (pos + stepsize)
        (delays ++ [pos])
        (errors ++ [_integrate_error (avgAt pos) nbaseline])
    else some (delays, errors)

/-- `PFTSAutoOverlap._measure_error`: move to `motorStart - 1e-12`, then
scan 2 ps forward in `stepsize` increments, recording delay vs integrated
error.  `avgAt pos` is the averaged error waveform acquired at `pos`.
Note that the scan window depends only on `motorStart`; the configured
search bounds `_search_low` / `_search_high` do not appear. -/
def _measure_error (avgAt : ℚ → List ℚ) (nbaseline : ℕ) (stepsize : ℚ)
    (fuel : ℕ) (motorStart : ℚ) : Option (List ℚ × List ℚ) :=
  let scanStart := motorStart - pico
  let scanEnd := scanStart + 2 * pico
  measureLoop avgAt nbaseline stepsize scanEnd fuel scanStart [] []

/-- Helper of `np.argmax`: scan the remaining list, keeping the index and
value of the running maximum; ties keep the earlier index. -/
def argmaxAux : List ℚ → ℕ → ℕ × ℚ → ℕ × ℚ
  | [], _, best => best
  | x :: rest, i, best =>
    if best.2 < x then argmaxAux rest (i+1) (i, x)
    else argmaxAux rest (i+1) best

/-- `np.argmax`: index of the first occurrence of the maximum value. -/
def argmax (xs : List ℚ) : ℕ :=
  match xs with
  | [] => 0
  | x :: rest => (argmaxAux rest 1 (0, x)).1

/-- `np.gradient` with unit spacing: one-sided differences at the two ends,
central differences inside.  `numpy` rejects arrays of fewer than two
elements, modelled as the empty list. -/
def np_gradient (ys : List ℚ) : List ℚ :=
  if ys.length < 2 then []
  else (List.range ys.length).map fun i =>
    if i = 0 then ys.getD 1 0 - ys.getD 0 0
    else if i = ys.length - 1 then
      ys.getD (ys.length - 1) 0 - ys.getD (ys.length - 2) 0
    else (ys.getD (i+1) 0 - ys.getD (i-1) 0) / 2

/-- Sum of first coordinates of a point list. -/
def sX (pts : List (ℚ × ℚ)) : ℚ := (pts.map fun p => p.1).sum

/-- Sum of second coordinates of a point list. -/
def sY (pts : List (ℚ × ℚ)) : ℚ := (pts.map fun p => p.2).sum

/-- Sum of squares of first coordinates. -/
def sXX (pts : List (ℚ × ℚ)) : ℚ := (pts.map fun p => p.1 * p.1).sum

/-- Sum of products of the two coordinates. -/
def sXY (pts : List (ℚ × ℚ)) : ℚ := (pts.map fun p => p.1 * p.2).sum

/-- Sum of squares of second coordinates. -/
def sYY (pts : List (ℚ × ℚ)) : ℚ := (pts.map fun p => p.2 * p.2).sum

/-- Determinant of the degree-1 least-squares normal equations. -/
def lsqDen (pts : List (ℚ × ℚ)) : ℚ :=
  pts.length * sXX pts - sX pts * sX pts

/-- Degree-1 least-squares fit of a point list: `(slope, intercept)`
solving the normal equations (the exact-arithmetic content of
`np.polyfit(x, y, 1)`). -/
def polyfitP (pts : List (ℚ × ℚ)) : ℚ × ℚ :=
  ((pts.length * sXY pts - sX pts * sY pts) / lsqDen pts,
   (sXX pts * sY pts - sX pts * sXY pts) / lsqDen pts)

/-- `np.polyfit(x, y, 1)` on parallel coordinate lists. -/
def polyfit1 (x y : List ℚ) : ℚ × ℚ := polyfitP (x.zip y)

/-- Residual sum of squares of the line `y = m*x + b` on a point list;
`polyfitP` is proved below to minimize it. -/
def RSS (pts : List (ℚ × ℚ)) (m b : ℚ) : ℚ :=
  (pts.map fun p => (p.2 - (m * p.1 + b)) ^ 2).sum

/-- Fit window of `_find_zero_error`: around `center = argmax (gradient)`,
the half-open Python slice `[start:end]` with `start = max (center-3) 0`
and `end = min (len errors) (center+3)`, applied to both lists. -/
def fitWindow (delays errors : List ℚ) : List ℚ × List ℚ :=
  let grad := np_gradient errors
  let center := argmax grad
  let fitEnd := if errors.length < center + 3 then errors.length
    else center + 3
  let fitStart := if center < 3 then 0 else center - 3
  ((delays.drop fitStart).take (fitEnd - fitStart),
   (errors.drop fitStart).take (fitEnd - fitStart))

/-- The zero-crossing estimate `-coeff[1]/coeff[0]` of `_find_zero_error`,
before validation. -/
def zeroEstimate (delays errors : List ℚ) : ℚ :=
  let w := fitWindow delays errors
  let coeff := polyfit1 w.1 w.2
  (-coeff.2) / coeff.1

/-- Modelled from the spec: the Zero-Crossing Estimator is described as
fitting over "a symmetric window of up to 3 points on each side" of the
center, i.e. indices `center-3` through `center+3` inclusive, clipped to
the array bounds.  This definition follows those words; it is compared
against `zeroEstimate`, which embeds the source's half-open slice. -/
def zeroEstimateSymmetric (delays errors : List ℚ) : ℚ :=
  let grad := np_gradient errors
  let center := argmax grad
  let lo := center - 3
  let hi := min (errors.length - 1) (center + 3)
  let x := (delays.drop lo).take (hi + 1 - lo)
  let y := (errors.drop lo).take (hi + 1 - lo)
  let coeff := polyfit1 x y
  (-coeff.2) / coeff.1

/-- `PFTSAutoOverlap._find_zero_error`: estimate the zero crossing from
the local linear fit, then validate: outside the measured delay range is
one error, negative is another, otherwise return the estimate. -/
def _find_zero_error (delays errors : List ℚ) : Except AutoErr ℚ :=
  let zero := zeroEstimate delays errors
  if zero < delays.headD 0 ∨ delays.getLastD 0 < zero then
    Except.error AutoErr.zeroOutOfRange
  else if zero < 0 then Except.error AutoErr.zeroNegative
  else Except.ok zero

/-- Monitor-optimization retry loop of `auto_overlap` (`while i < 3` with
a `while ... else` exhaustion clause).  Attempt `i` runs the optimizer for
each channel (`opt1 i`, `opt2 i`, results bound but unused, as in the
source; an optimizer exception propagates), then re-tests the current raw
readings `read1 i`, `read2 i` of the two monitor channels. -/
def monitorAttempts (opt1 opt2 : ℕ → Except AutoErr Bool)
    (read1 read2 : ℕ → List ℚ) (threshold : ℚ) :
    ℕ → ℕ → Except AutoErr Unit
  | 0, _ => Except.error AutoErr.monitorFail
  | rem+1, i =>
    match opt1 i with
    | Except.error e => Except.error e
    | Except.ok _ =>
      match opt2 i with
      | Except.error e => Except.error e
      | Except.ok _ =>
        if _test_monitor (read1 i) threshold
            && _test_monitor (read2 i) threshold
        then Except.ok ()
        else monitorAttempts opt1 opt2 read1 read2 threshold rem (i+1)

/-- Tail of `auto_overlap` after monitor optimization: scan the error
curve, estimate the zero crossing, and command the motor there (the
returned `ℚ` is that final commanded position). -/
def scanPhase (avgAt : ℚ → List ℚ) (nbaseline : ℕ) (fineStep : ℚ)
    (fuel : ℕ) (pos : ℚ) : Option (Except AutoErr ℚ) :=
  match _measure_error avgAt nbaseline fineStep fuel pos with
  | none => none
  | some (ds, es) =>
    match _find_zero_error ds es with
    | Except.error e => some (Except.error e)
    | Except.ok zero => some (Except.ok zero)

/-- `PFTSAutoOverlap.auto_overlap`: up to 3 monitor-optimization attempt
pairs, then the error-curve scan and final positioning.  The two health
checks at the top of the source always return `True` and are omitted. -/
def auto_overlap (opt1 opt2 : ℕ → Except AutoErr Bool)
    (read1 read2 : ℕ → List ℚ) (threshold : ℚ) (avgAt : ℚ → List ℚ)
    (nbaseline : ℕ) (fineStep : ℚ) (fuel : ℕ) (pos : ℚ) :
    Option (Except AutoErr ℚ) :=
  match monitorAttempts opt1 opt2 read1 read2 threshold 3 0 with
  | Except.error e => some (Except.error e)
  | Except.ok _ => scanPhase avgAt nbaseline fineStep fuel pos

/-! ## Claim C3: the range check at the entry of `optimize_monitor` -/

/-- C3: if at entry the delay position is not strictly inside
`(low, high)`, `optimize_monitor` fails with the out-of-range error
immediately — uniformly in the waveform environment and in the loop fuel,
so before any acquisition or motion; if the position is strictly inside,
no such error is raised at entry. -/
theorem optimize_monitor_entry_check (env envB : ℚ → List ℚ)
    (low high stepsize threshold : ℚ) (fuel fuelB : ℕ) (motorStart : ℚ) :
    (¬ (low < motorStart ∧ motorStart < high) →
      optimize_monitor env low high stepsize threshold fuel motorStart
          = Except.error AutoErr.outOfBounds ∧
      optimize_monitor env low high stepsize threshold fuel motorStart
          = optimize_monitor envB low high stepsize threshold fuelB motorStart)
    ∧ ((low < motorStart ∧ motorStart < high) →
      ∃ o, optimize_monitor env low high stepsize threshold fuel motorStart
          = Except.ok o) := by
  constructor
  · intro h
    have hcond : ¬ (motorStart < high ∧ low < motorStart) := by
      intro hc; exact h ⟨hc.2, hc.1⟩
    rw [optimize_monitor, if_neg hcond, optimize_monitor, if_neg hcond]
    exact ⟨rfl, rfl⟩
  · intro h
    have hcond : motorStart < high ∧ low < motorStart := ⟨h.2, h.1⟩
    rw [optimize_monitor, if_pos hcond]
    exact ⟨_, rfl⟩

/-- Witness for C3 at a concrete out-of-range start (start 2, range
(0, 1)): the out-of-range error is returned. -/
theorem optimize_monitor_entry_check_witness :
    optimize_monitor (fun _ => [0]) 0 1 (1/2) 5 3 2
        = Except.error AutoErr.outOfBounds :=
  ((optimize_monitor_entry_check (fun _ => [0]) (fun _ => [1])
      0 1 (1/2) 5 3 7 2).1 (by norm_num)).1

/-! ## Claim C7: validation of the zero-crossing estimate -/

/-- C7 counterexample: on the exactly linear curve through
`(1,2) … (4,5)` the fitted zero crossing is `-1`, which is negative, yet
`_find_zero_error` raises the out-of-range error, not the distinct
negative-estimate error: the out-of-range test fires first. -/
theorem find_zero_negative_cex :
    zeroEstimate [1,2,3,4] [2,3,4,5] = -1 ∧ ((-1 : ℚ) < 0) ∧
    _find_zero_error [1,2,3,4] [2,3,4,5]
        = Except.error AutoErr.zeroOutOfRange ∧
    AutoErr.zeroOutOfRange ≠ AutoErr.zeroNegative := by
  refine ⟨?_, by norm_num, ?_, by decide⟩
  · norm_num [zeroEstimate, fitWindow, np_gradient, argmax, argmaxAux,
      List.range_succ, polyfit1, polyfitP, lsqDen, sX, sY, sXX, sXY]
  · norm_num [_find_zero_error, zeroEstimate, fitWindow, np_gradient,
      argmax, argmaxAux, List.range_succ, polyfit1, polyfitP, lsqDen,
      sX, sY, sXX, sXY]

/-- C7 (amended): `_find_zero_error` never silently clamps: an estimate
outside the measured span `[delays[0], delays[-1]]` raises the
out-of-range error (even when it is also negative); an estimate inside
the span raises the distinct negative-estimate error exactly when it is
negative, and otherwise is returned unchanged. -/
theorem find_zero_validation (delays errors : List ℚ)
    (h2 : 2 ≤ delays.length) (hlen : delays.length = errors.length) :
    (zeroEstimate delays errors < delays.headD 0 ∨
        delays.getLastD 0 < zeroEstimate delays errors →
      _find_zero_error delays errors = Except.error AutoErr.zeroOutOfRange)
    ∧ (delays.headD 0 ≤ zeroEstimate delays errors ∧
        zeroEstimate delays errors ≤ delays.getLastD 0 ∧
        zeroEstimate delays errors < 0 →
      _find_zero_error delays errors = Except.error AutoErr.zeroNegative)
    ∧ (delays.headD 0 ≤ zeroEstimate delays errors ∧
        zeroEstimate delays errors ≤ delays.getLastD 0 ∧
        0 ≤ zeroEstimate delays errors →
      _find_zero_error delays errors = Except.ok (zeroEstimate delays errors)) := by
  refine ⟨fun h => ?_, fun h => ?_, fun h => ?_⟩
  · rw [_find_zero_error, if_pos h]
  · rw [_find_zero_error,
      if_neg (by push_neg; exact ⟨not_lt.mp (not_lt.mpr h.1), h.2.1⟩),
      if_pos h.2.2]
  · rw [_find_zero_error,
      if_neg (by push_neg; exact ⟨not_lt.mp (not_lt.mpr h.1), h.2.1⟩),
      if_neg (not_lt.mpr h.2.2)]

/-! ## Claims C2 and C4: the `optimize_monitor` sweep loops -/

/-- Backward sweep under a never-passing environment: any terminating run
returns `False` with the motor commanded back to `motorStart`. -/
theorem omBackward_fail (env : ℚ → List ℚ) (low stepsize threshold motorStart : ℚ)
    (hfail : ∀ p, _test_monitor (env p) threshold = false) :
    ∀ (fuel : ℕ) (pos : ℚ) (trace : List ℚ) (b : Bool) (fin : ℚ) (tr : List ℚ),
      omBackward env low stepsize threshold motorStart fuel pos trace
          = some (b, fin, tr) →
      b = false ∧ fin = motorStart := by
  intro fuel
  induction fuel with
  | zero => intro pos trace b fin tr h; simp [omBackward] at h
  | succ n ih =>
    intro pos trace b fin tr h
    rw [omBackward] at h
    by_cases hg : low < pos - stepsize
    · rw [if_pos hg, hfail pos] at h
      simp only [Bool.false_eq_true, if_false] at h
      exact ih _ _ _ _ _ h
    · rw [if_neg hg] at h
      simp only [Option.some.injEq, Prod.mk.injEq] at h
      exact ⟨h.1.symm, h.2.1.symm⟩

/-- Forward sweep under a never-passing environment: any terminating run
returns `False` with the motor commanded back to `motorStart`. -/
theorem omForward_fail (env : ℚ → List ℚ) (low high stepsize threshold motorStart : ℚ)
    (hfail : ∀ p, _test_monitor (env p) threshold = false) :
    ∀ (fuel : ℕ) (pos : ℚ) (trace : List ℚ) (b : Bool) (fin : ℚ) (tr : List ℚ),
      omForward env low high stepsize threshold motorStart fuel pos trace
          = some (b, fin, tr) →
      b = false ∧ fin = motorStart := by
  intro fuel
  induction fuel with
  | zero => intro pos trace b fin tr h; simp [omForward] at h
  | succ n ih =>
    intro pos trace b fin tr h
    rw [omForward] at h
    by_cases hg : pos + stepsize < high
    · rw [if_pos hg, hfail pos] at h
      simp only [Bool.false_eq_true, if_false] at h
      exact ih _ _ _ _ _ h
    · rw [if_neg hg] at h
      exact omBackward_fail env low stepsize threshold motorStart hfail _ _ _ _ _ _ h

/-- C2: when `optimize_monitor` starts strictly inside `(low, high)` and
no averaged waveform ever passes the threshold test, a terminating run
returns `False` and its final commanded position is exactly the recorded
starting position; no exception is raised (the result is `Except.ok`). -/
theorem optimize_monitor_fail_restores (env : ℚ → List ℚ)
    (low high stepsize threshold : ℚ) (fuel : ℕ) (motorStart : ℚ)
    (b : Bool) (fin : ℚ) (tr : List ℚ)
    (hlo : low < motorStart) (hhi : motorStart < high)
    (hfail : ∀ p, _test_monitor (env p) threshold = false)
    (hres : optimize_monitor env low high stepsize threshold fuel motorStart
        = Except.ok (some (b, fin, tr))) :
    b = false ∧ fin = motorStart := by
  rw [optimize_monitor, if_pos ⟨hhi, hlo⟩] at hres
  simp only [Except.ok.injEq] at hres
  exact omForward_fail env low high stepsize threshold motorStart hfail
    fuel motorStart [motorStart] b fin tr hres

/-- Witness for C2: a concrete never-passing run (threshold 5, constant
waveform `[0]`) terminates with `False` at the starting position `1/2`. -/
theorem optimize_monitor_fail_restores_witness :
    optimize_monitor (fun _ => [0]) 0 1 (1/2) 5 6 (1/2)
        = Except.ok (some (false, 1/2, [1/2, 1/2]))
    ∧ ((false : Bool) = false ∧ (1/2 : ℚ) = 1/2) := by
  have hres : optimize_monitor (fun _ => [0]) 0 1 (1/2) 5 6 (1/2)
      = Except.ok (some (false, 1/2, [1/2, 1/2])) := by
    norm_num [optimize_monitor, omForward, omBackward, _test_monitor, pymax]
  exact ⟨hres, optimize_monitor_fail_restores (fun _ => [0]) 0 1 (1/2) 5 6 (1/2)
    false (1/2) [1/2, 1/2] (by norm_num) (by norm_num)
    (fun p => by norm_num [_test_monitor, pymax]) hres⟩

/-- Backward-sweep bound invariant: with a positive step, starting below
`high` and with all trace entries strictly inside, every commanded
position of a terminating backward sweep stays strictly inside
`(low, high)`. -/
theorem omBackward_bounds (env : ℚ → List ℚ)
    (low high stepsize threshold motorStart : ℚ)
    (hstep : 0 < stepsize) (hms_lo : low < motorStart) (hms_hi : motorStart < high) :
    ∀ (fuel : ℕ) (pos : ℚ) (trace : List ℚ) (b : Bool) (fin : ℚ) (tr : List ℚ),
      low < pos → pos < high →
      (∀ q ∈ trace, low < q ∧ q < high) →
      omBackward env low stepsize threshold motorStart fuel pos trace
          = some (b, fin, tr) →
      ∀ p ∈ tr, low < p ∧ p < high := by
  intro fuel
  induction fuel with
  | zero => intro pos trace b fin tr _ _ _ h; simp [omBackward] at h
  | succ n ih =>
    intro pos trace b fin tr hplo hphi htrace h
    rw [omBackward] at h
    by_cases hg : low < pos - stepsize
    · rw [if_pos hg] at h
      by_cases ht : _test_monitor (env pos) threshold
      · rw [if_pos ht] at h
        simp only [Option.some.injEq, Prod.mk.injEq] at h
        rw [← h.2.2]
        exact htrace
      · rw [if_neg ht] at h
        refine ih (pos - stepsize) _ b fin tr hg (by linarith) ?_ h
        intro q hq
        rcases List.mem_append.mp hq with hq | hq
        · exact htrace q hq
        · rcases List.mem_singleton.mp hq with rfl
          exact ⟨hg, by linarith⟩
    · rw [if_neg hg] at h
      simp only [Option.some.injEq, Prod.mk.injEq] at h
      rw [← h.2.2]
      intro p hp
      rcases List.mem_append.mp hp with hp | hp
      · exact htrace p hp
      · rcases List.mem_singleton.mp hp with rfl
        exact ⟨hms_lo, hms_hi⟩

/-- Forward-sweep bound invariant, falling through to the backward one. -/
theorem omForward_bounds (env : ℚ → List ℚ)
    (low high stepsize threshold motorStart : ℚ)
    (hstep : 0 < stepsize) (hms_lo : low < motorStart) (hms_hi : motorStart < high) :
    ∀ (fuel : ℕ) (pos : ℚ) (trace : List ℚ) (b : Bool) (fin : ℚ) (tr : List ℚ),
      low < pos → pos < high →
      (∀ q ∈ trace, low < q ∧ q < high) →
      omForward env low high stepsize threshold motorStart fuel pos trace
          = some (b, fin, tr) →
      ∀ p ∈ tr, low < p ∧ p < high := by
  intro fuel
  induction fuel with
  | zero => intro pos trace b fin tr _ _ _ h; simp [omForward] at h
  | succ n ih =>
    intro pos trace b fin tr hplo hphi htrace h
    rw [omForward] at h
    by_cases hg : pos + stepsize < high
    · rw [if_pos hg] at h
      by_cases ht : _test_monitor (env pos) threshold
      · rw [if_pos ht] at h
        simp only [Option.some.injEq, Prod.mk.injEq] at h
        rw [← h.2.2]
        exact htrace
      · rw [if_neg ht] at h
        refine ih (pos + stepsize) _ b fin tr (by linarith) hg ?_ h
        intro q hq
        rcases List.mem_append.mp hq with hq | hq
        · exact htrace q hq
        · rcases List.mem_singleton.mp hq with rfl
          exact ⟨by linarith, hg⟩
    · rw [if_neg hg] at h
      exact omBackward_bounds env low high stepsize threshold motorStart
        hstep hms_lo hms_hi n pos trace b fin tr hplo hphi htrace h

/-- C4: an `optimize_monitor` run with positive step that starts strictly
inside `(low, high)` keeps every commanded position strictly inside
`(low, high)`: no position of the motion trace reaches either bound. -/
theorem optimize_monitor_in_bounds (env : ℚ → List ℚ)
    (low high stepsize threshold : ℚ) (fuel : ℕ) (motorStart : ℚ)
    (b : Bool) (fin : ℚ) (tr : List ℚ)
    (hstep : 0 < stepsize) (hlo : low < motorStart) (hhi : motorStart < high)
    (hres : optimize_monitor env low high stepsize threshold fuel motorStart
        = Except.ok (some (b, fin, tr))) :
    ∀ p ∈ tr, low < p ∧ p < high := by
  rw [optimize_monitor, if_pos ⟨hhi, hlo⟩] at hres
  simp only [Except.ok.injEq] at hres
  refine omForward_bounds env low high stepsize threshold motorStart
    hstep hlo hhi fuel motorStart [motorStart] b fin tr hlo hhi ?_ hres
  intro q hq
  rcases List.mem_singleton.mp hq with rfl
  exact ⟨hlo, hhi⟩

/-- Witness for C4: in the concrete run of the C2 witness the traced
position `1/2` is strictly inside `(0, 1)`. -/
theorem optimize_monitor_in_bounds_witness :
    (0 : ℚ) < 1/2 ∧ (1/2 : ℚ) < 1 :=
  optimize_monitor_in_bounds (fun _ => [0]) 0 1 (1/2) 5 6 (1/2)
    false (1/2) [1/2, 1/2] (by norm_num) (by norm_num) (by norm_num)
    (by norm_num [optimize_monitor, omForward, omBackward, _test_monitor, pymax])
    (1/2) (by norm_num)

/-! ## Claim C5: `_average_signal` -/

/-- When every reading is long enough, the acquisition loop succeeds and
returns the truncated readings. -/
theorem getSignals_ok (len : ℕ) :
    ∀ readings : List (List ℚ), (∀ r ∈ readings, len ≤ r.length) →
      getSignals readings len = Except.ok (readings.map fun r => r.take len) := by
  intro readings
  induction readings with
  | nil => intro _; rfl
  | cons r rs ih =>
    intro h
    have hr : _get_signal r len = Except.ok (r.take len) := by
      rw [_get_signal, if_neg (not_lt.mpr (h r (List.mem_cons_self r rs)))]
    rw [getSignals, hr, ih (fun x hx => h x (List.mem_cons_of_mem r hx)), List.map_cons]

/-- When some reading is too short, the acquisition loop fails with the
length-validation error. -/
theorem getSignals_err (len : ℕ) :
    ∀ readings : List (List ℚ), (∃ r ∈ readings, r.length < len) →
      getSignals readings len = Except.error AutoErr.valueShort := by
  intro readings
  induction readings with
  | nil => intro h; rcases h with ⟨r, hr, _⟩; exact absurd hr (List.not_mem_nil r)
  | cons r rs ih =>
    intro h
    by_cases hr : r.length < len
    · rw [getSignals, _get_signal, if_pos hr]
    · rcases h with ⟨x, hx, hxlen⟩
      rcases List.mem_cons.mp hx with rfl | hx
      · exact absurd hxlen hr
      · rw [getSignals, _get_signal, if_neg hr, ih ⟨x, hx, hxlen⟩]

/-- C5: for a non-empty batch of readings, `_average_signal` returns a
list of exactly `len` elements whose `i`-th entry is the mean over the
readings of their `i`-th samples, provided every reading has at least
`len` samples; if some reading is shorter than `len`, it fails with the
length-validation error. -/
theorem average_signal_spec (readings : List (List ℚ)) (len : ℕ)
    (hne : readings ≠ []) :
    ((∀ r ∈ readings, len ≤ r.length) →
      ∃ out, _average_signal readings len = Except.ok out ∧
        out.length = len ∧
        ∀ i, i < len → out.getD i 0
          = ((readings.map fun r => r.getD i 0).sum) / readings.length)
    ∧ ((∃ r ∈ readings, r.length < len) →
      _average_signal readings len = Except.error AutoErr.valueShort) := by
  constructor
  · intro h
    rw [_average_signal, getSignals_ok len readings h]
    refine ⟨meanColumns (readings.map fun r => r.take len) len, rfl, ?_, ?_⟩
    · simp [meanColumns]
    · intro i hi
      have hlt : i < (meanColumns (readings.map fun r => r.take len) len).length := by
        simpa [meanColumns] using hi
      rw [List.getD_eq_getElem _ _ hlt]
      simp only [meanColumns, List.getElem_map, List.getElem_range, List.map_map,
        List.length_map]
      congr 1
      congr 1
      refine List.map_congr_left ?_
      intro r hr
      simp only [Function.comp_apply]
      have : (r.take len)[i]? = r[i]? := List.getElem?_take_of_lt hi
      simp [List.getD_eq_getElem?_getD, this]
  · intro h
    rw [_average_signal, getSignals_err len readings h]

/-- Witness for C5: two readings of length 2, useful length 2; the result
is the element-wise mean. -/
theorem average_signal_spec_witness :
    ∃ out, _average_signal [[1,2],[3,4]] 2 = Except.ok out ∧
      out.length = 2 ∧
      ∀ i, i < 2 → out.getD i 0
        = ((([[1,2],[3,4]] : List (List ℚ)).map fun r => r.getD i 0).sum)
          / (([[1,2],[3,4]] : List (List ℚ)).length) :=
  (average_signal_spec [[1,2],[3,4]] 2 (by simp)).1
    (by intro r hr; fin_cases hr <;> norm_num)
/-! ## Claims C6 and C10: `_measure_error` -/

/-- Characterization of the scan loop: a terminating run appends to the
accumulators exactly the arithmetic progression of positions below
`scanEnd` and their integrated errors, and stops at the first position
reaching `scanEnd`. -/
theorem measureLoop_spec (avgAt : ℚ → List ℚ) (nbaseline : ℕ)
    (stepsize scanEnd : ℚ) :
    ∀ (fuel : ℕ) (pos : ℚ) (ds es ds2 es2 : List ℚ),
      measureLoop avgAt nbaseline stepsize scanEnd fuel pos ds es
          = some (ds2, es2) →
      ∃ k : ℕ,
        ds2 = ds ++ (List.range k).map (fun i : ℕ => pos + (i : ℚ) * stepsize) ∧
        es2 = es ++ (List.range k).map (fun i : ℕ =>
          _integrate_error (avgAt (pos + (i : ℚ) * stepsize)) nbaseline) ∧
        (∀ i : ℕ, i < k → pos + (i : ℚ) * stepsize < scanEnd) ∧
        scanEnd ≤ pos + (k : ℚ) * stepsize := by
  intro fuel
  induction fuel with
  | zero => intro pos ds es ds2 es2 h; simp [measureLoop] at h
  | succ n ih =>
    intro pos ds es ds2 es2 h
    rw [measureLoop] at h
    by_cases hg : pos < scanEnd
    · rw [if_pos hg] at h
      obtain ⟨k, hds, hes, hlt, hge⟩ := ih (pos + stepsize) _ _ _ _ h
      refine ⟨k + 1, ?_, ?_, ?_, ?_⟩
      · rw [hds, List.range_succ_eq_map, List.map_cons, List.map_map]
        simp only [Nat.cast_zero, zero_mul, add_zero, List.append_assoc,
          List.singleton_append]
        congr 2
        refine List.map_congr_left ?_
        intro i _
        simp only [Function.comp_apply]
        push_cast
        ring
      · rw [hes, List.range_succ_eq_map, List.map_cons, List.map_map]
        simp only [Nat.cast_zero, zero_mul, add_zero, List.append_assoc,
          List.singleton_append]
        congr 2
        refine List.map_congr_left ?_
        intro i _
        simp only [Function.comp_apply]
        congr 2
        push_cast
        ring
      · intro i hi
        cases i with
        | zero => simpa using hg
        | succ j =>
          have := hlt j (by omega)
          push_cast
          push_cast at this
          linarith
      · push_cast
        linarith
    · rw [if_neg hg] at h
      simp only [Option.some.injEq, Prod.mk.injEq] at h
      refine ⟨0, ?_, ?_, by omega, ?_⟩
      · simp [← h.1]
      · simp [← h.2]
      · simpa using not_lt.mp hg

/-- C6: a terminating `_measure_error` run starting at `p` records delays
forming the arithmetic progression `p - 1e-12, p - 1e-12 + step, …`, all
strictly below `p + 1e-12`, stopping at the first position reaching
`p + 1e-12`; the recorded error of each delay is the trapezoidal-rule
integral of the averaged error waveform at that delay after subtracting
the mean of its first `nbaseline` samples from every sample. -/
theorem measure_error_spec (avgAt : ℚ → List ℚ) (nbaseline : ℕ)
    (stepsize : ℚ) (fuel : ℕ) (motorStart : ℚ) (ds es : List ℚ)
    (hres : _measure_error avgAt nbaseline stepsize fuel motorStart
        = some (ds, es)) :
    es.length = ds.length ∧
    (∀ i : ℕ, i < ds.length →
      ds.getD i 0 = (motorStart - pico) + (i : ℚ) * stepsize) ∧
    (∀ i : ℕ, i < ds.length →
      es.getD i 0 = np_trapz ((avgAt (ds.getD i 0)).map fun s =>
        s - pyAverage ((avgAt (ds.getD i 0)).take nbaseline))) ∧
    (∀ d ∈ ds, d < motorStart + pico) ∧
    motorStart + pico ≤ (motorStart - pico) + (ds.length : ℚ) * stepsize := by
  rw [_measure_error] at hres
  obtain ⟨k, hds, hes, hlt, hge⟩ :=
    measureLoop_spec avgAt nbaseline stepsize
      ((motorStart - pico) + 2 * pico) fuel (motorStart - pico) [] [] ds es hres
  simp only [List.nil_append] at hds hes
  have hdelay : motorStart - pico + 2 * pico = motorStart + pico := by ring
  have hdslen : ds.length = k := by simp [hds]
  have hgetd : ∀ i : ℕ, i < k →
      ds.getD i 0 = (motorStart - pico) + (i : ℚ) * stepsize := by
    intro i hi
    have hlen : i < ds.length := by omega
    rw [List.getD_eq_getElem _ _ hlen]
    subst hds
    simp
  refine ⟨?_, ?_, ?_, ?_, ?_⟩
  · simp [hds, hes]
  · intro i hi; exact hgetd i (by omega)
  · intro i hi
    have hik : i < k := by omega
    have hlenes : i < es.length := by simp [hes]; omega
    rw [List.getD_eq_getElem _ _ hlenes, hgetd i hik]
    subst hes
    simp only [List.getElem_map, List.getElem_range, _integrate_error]
  · intro d hd
    rw [hds] at hd
    obtain ⟨i, hi, rfl⟩ := List.mem_map.mp hd
    rw [List.mem_range] at hi
    have := hlt i hi
    linarith [hdelay.le]
  · rw [hdslen]
    linarith [hdelay.ge]

/-- Witness for C6: a concrete three-step run with waveform `[1, 2]` and
one baseline sample; the loop records two delays. -/
theorem measure_error_spec_witness :
    _measure_error (fun _ => [1, 2]) 1 pico 3 0 = some ([-pico, 0], [1/2, 1/2])
    ∧ ([1/2, 1/2] : List ℚ).length = ([-pico, 0] : List ℚ).length := by
  have hres : _measure_error (fun _ => [1, 2]) 1 pico 3 0
      = some ([-pico, 0], [1/2, 1/2]) := by
    norm_num [_measure_error, measureLoop, _integrate_error, pyAverage,
      np_trapz, pico]
  exact ⟨hres, (measure_error_spec (fun _ => [1, 2]) 1 pico 3 0
    [-pico, 0] [1/2, 1/2] hres).1⟩

/-- C10: `_measure_error` chooses its commanded positions without
consulting the configured search bounds — they are not parameters of the
definition at all, so the commanded sequence is the same for any bounds —
and those positions can leave the bounds: with search range
`(-pico/2, pico/2)` and the scan started at `0`, strictly inside, the
first recorded (and commanded) position `-pico` is below the lower
bound. -/
theorem measure_error_ignores_bounds :
    ∃ ds es, _measure_error (fun _ => [1, 2]) 1 pico 3 0 = some (ds, es) ∧
      ((-(pico/2) : ℚ) < 0 ∧ (0 : ℚ) < pico/2) ∧
      ∃ d ∈ ds, d < -(pico/2) := by
  refine ⟨[-pico, 0], [1/2, 1/2], ?_, ⟨by norm_num [pico], by norm_num [pico]⟩,
    -pico, List.mem_cons_self _ _, by norm_num [pico]⟩
  norm_num [_measure_error, measureLoop, _integrate_error, pyAverage,
    np_trapz, pico]

/-! ## Claim C9: the monitor-optimization retry loop of `auto_overlap` -/

/-- If, for `rem` consecutive attempts starting at attempt `i`, the
post-attempt re-test of the two raw monitor readings never passes for
both channels, the retry loop exhausts its budget and fails. -/
theorem monitorAttempts_fail (opt1 opt2 : ℕ → Except AutoErr Bool)
    (read1 read2 : ℕ → List ℚ) (threshold : ℚ)
    (h1 : ∀ i, ∃ v, opt1 i = Except.ok v)
    (h2 : ∀ i, ∃ v, opt2 i = Except.ok v) :
    ∀ (rem i : ℕ),
      (∀ j, i ≤ j → j < i + rem →
        ¬(_test_monitor (read1 j) threshold = true ∧
          _test_monitor (read2 j) threshold = true)) →
      monitorAttempts opt1 opt2 read1 read2 threshold rem i
          = Except.error AutoErr.monitorFail := by
  intro rem
  induction rem with
  | zero => intro i _; rfl
  | succ n ih =>
    intro i h
    obtain ⟨v1, hv1⟩ := h1 i
    obtain ⟨v2, hv2⟩ := h2 i
    rw [monitorAttempts, hv1, hv2]
    have hfail : ¬(_test_monitor (read1 i) threshold = true ∧
        _test_monitor (read2 i) threshold = true) :=
      h i le_rfl (by omega)
    have hcond : (_test_monitor (read1 i) threshold
        && _test_monitor (read2 i) threshold) = false := by
      cases ht1 : _test_monitor (read1 i) threshold with
      | false => simp
      | true =>
        cases ht2 : _test_monitor (read2 i) threshold with
        | false => simp
        | true => exact absurd ⟨ht1, ht2⟩ hfail
    rw [hcond]
    simp only [Bool.false_eq_true, if_false]
    exact ih (i + 1) (fun j hj1 hj2 => h j (by omega) (by omega))

/-- If some attempt within the budget passes the re-test on both
channels, the retry loop succeeds. -/
theorem monitorAttempts_pass (opt1 opt2 : ℕ → Except AutoErr Bool)
    (read1 read2 : ℕ → List ℚ) (threshold : ℚ)
    (h1 : ∀ i, ∃ v, opt1 i = Except.ok v)
    (h2 : ∀ i, ∃ v, opt2 i = Except.ok v) :
    ∀ (rem i : ℕ),
      (∃ j, i ≤ j ∧ j < i + rem ∧
        _test_monitor (read1 j) threshold = true ∧
        _test_monitor (read2 j) threshold = true) →
      monitorAttempts opt1 opt2 read1 read2 threshold rem i
          = Except.ok () := by
  intro rem
  induction rem with
  | zero => intro i h; obtain ⟨j, hj1, hj2, _⟩ := h; omega
  | succ n ih =>
    intro i h
    obtain ⟨v1, hv1⟩ := h1 i
    obtain ⟨v2, hv2⟩ := h2 i
    rw [monitorAttempts, hv1, hv2]
    by_cases hpass : (_test_monitor (read1 i) threshold
        && _test_monitor (read2 i) threshold) = true
    · rw [hpass]
      simp
    · rw [Bool.not_eq_true] at hpass
      rw [hpass]
      simp only [Bool.false_eq_true, if_false]
      refine ih (i + 1) ?_
      obtain ⟨j, hj1, hj2, hjt1, hjt2⟩ := h
      refine ⟨j, ?_, by omega, hjt1, hjt2⟩
      rcases Nat.eq_or_lt_of_le hj1 with rfl | hj
      · rw [hjt1, hjt2] at hpass
        simp at hpass
      · omega

/-- C9: when the per-attempt optimizer calls raise no exception,
`auto_overlap` makes at most 3 attempt pairs: it proceeds to the
error-curve scan exactly when some attempt `j < 3` has both channels'
current raw readings pass the threshold re-test, and otherwise (all 3
attempts failing the re-test) raises the fatal monitor-failure error
without scanning. -/
theorem auto_overlap_retry (opt1 opt2 : ℕ → Except AutoErr Bool)
    (read1 read2 : ℕ → List ℚ) (threshold : ℚ) (avgAt : ℚ → List ℚ)
    (nbaseline : ℕ) (fineStep : ℚ) (fuel : ℕ) (pos : ℚ)
    (h1 : ∀ i, ∃ v, opt1 i = Except.ok v)
    (h2 : ∀ i, ∃ v, opt2 i = Except.ok v) :
    ((∀ j, j < 3 →
        ¬(_test_monitor (read1 j) threshold = true ∧
          _test_monitor (read2 j) threshold = true)) →
      auto_overlap opt1 opt2 read1 read2 threshold avgAt nbaseline fineStep
          fuel pos = some (Except.error AutoErr.monitorFail))
    ∧ ((∃ j, j < 3 ∧
        _test_monitor (read1 j) threshold = true ∧
        _test_monitor (read2 j) threshold = true) →
      auto_overlap opt1 opt2 read1 read2 threshold avgAt nbaseline fineStep
          fuel pos = scanPhase avgAt nbaseline fineStep fuel pos) := by
  constructor
  · intro h
    rw [auto_overlap, monitorAttempts_fail opt1 opt2 read1 read2 threshold
      h1 h2 3 0 (fun j hj1 hj2 => h j (by omega))]
  · intro h
    obtain ⟨j, hj, hjt1, hjt2⟩ := h
    rw [auto_overlap, monitorAttempts_pass opt1 opt2 read1 read2 threshold
      h1 h2 3 0 ⟨j, by omega, by omega, hjt1, hjt2⟩]

/-- Witness for C9: with both channels' raw readings passing at the first
attempt, `auto_overlap` proceeds to the scan phase. -/
theorem auto_overlap_retry_witness :
    auto_overlap (fun _ => Except.ok true) (fun _ => Except.ok false)
        (fun _ => [100]) (fun _ => [100]) 5 (fun _ => [1, 2]) 1 pico 3 0
      = scanPhase (fun _ => [1, 2]) 1 pico 3 0 :=
  (auto_overlap_retry (fun _ => Except.ok true) (fun _ => Except.ok false)
      (fun _ => [100]) (fun _ => [100]) 5 (fun _ => [1, 2]) 1 pico 3 0
      (fun i => ⟨true, rfl⟩) (fun i => ⟨false, rfl⟩)).2
    ⟨0, by norm_num, by norm_num [_test_monitor, pymax],
      by norm_num [_test_monitor, pymax]⟩

/-! ## Least-squares infrastructure for claims C1 and C8 -/

/-- Quadratic expansion of the residual sum of squares in terms of the
moment sums. -/
theorem RSS_expand (m b : ℚ) :
    ∀ pts : List (ℚ × ℚ),
      RSS pts m b = sYY pts - 2*m*sXY pts - 2*b*sY pts + m^2*sXX pts
        + 2*m*b*sX pts + (pts.length : ℚ)*b^2 := by
  intro pts
  induction pts with
  | nil => simp [RSS, sYY, sXY, sY, sXX, sX]
  | cons p ps ih =>
    simp only [RSS, sYY, sXY, sY, sXX, sX, List.map_cons, List.sum_cons,
      List.length_cons] at *
    push_cast
    linear_combination ih

/-- First normal equation of the degree-1 least-squares fit. -/
theorem polyfitP_normal_fst (pts : List (ℚ × ℚ)) (hD : lsqDen pts ≠ 0) :
    sXX pts * (polyfitP pts).1 + sX pts * (polyfitP pts).2 = sXY pts := by
  simp only [polyfitP]
  field_simp
  rw [lsqDen]
  ring

/-- Second normal equation of the degree-1 least-squares fit. -/
theorem polyfitP_normal_snd (pts : List (ℚ × ℚ)) (hD : lsqDen pts ≠ 0) :
    sX pts * (polyfitP pts).1 + (pts.length : ℚ) * (polyfitP pts).2 = sY pts := by
  simp only [polyfitP]
  field_simp
  rw [lsqDen]
  ring

/-- `polyfitP` minimizes the residual sum of squares: the fitted line is a
genuine least-squares fit whenever the normal-equation determinant is
positive. -/
theorem polyfitP_optimal (pts : List (ℚ × ℚ)) (hD : 0 < lsqDen pts)
    (m b : ℚ) :
    RSS pts (polyfitP pts).1 (polyfitP pts).2 ≤ RSS pts m b := by
  have hDne : lsqDen pts ≠ 0 := ne_of_gt hD
  have h1 := polyfitP_normal_fst pts hDne
  have h2 := polyfitP_normal_snd pts hDne
  have hn : (0 : ℚ) < (pts.length : ℚ) := by
    rcases Nat.eq_zero_or_pos pts.length with h0 | hpos
    · exfalso
      have hnil : pts = [] := List.length_eq_zero.mp h0
      rw [hnil] at hD
      simp [lsqDen, sXX, sX] at hD
    · exact_mod_cast hpos
  have hDlt : 0 < (pts.length : ℚ) * sXX pts - sX pts * sX pts := by
    rw [lsqDen] at hD; exact hD
  rw [RSS_expand, RSS_expand]
  set mh := (polyfitP pts).1
  set bh := (polyfitP pts).2
  rw [← h1, ← h2]
  nlinarith [sq_nonneg ((pts.length : ℚ) * (b - bh) + sX pts * (m - mh)),
    mul_nonneg hDlt.le (sq_nonneg (m - mh)), hn,
    mul_pos hn hn]

/-! ## `argmax` and variance lemmas -/

/-- The running best index stays below the scan frontier. -/
theorem argmaxAux_lt :
    ∀ (l : List ℚ) (i : ℕ) (best : ℕ × ℚ), best.1 < i →
      (argmaxAux l i best).1 < i + l.length := by
  intro l
  induction l with
  | nil => intro i best h; simpa [argmaxAux] using h
  | cons x rest ih =>
    intro i best h
    rw [argmaxAux]
    by_cases hb : best.2 < x
    · rw [if_pos hb]
      have h2 := ih (i + 1) (i, x) (Nat.lt_succ_self i)
      simp only [List.length_cons]
      omega
    · rw [if_neg hb]
      have h2 := ih (i + 1) best (by omega)
      simp only [List.length_cons]
      omega

/-- The scan keeps the stored value equal to the list entry at the stored
index. -/
theorem argmaxAux_getD (xs : List ℚ) :
    ∀ (m i : ℕ) (best : ℕ × ℚ), i + m = xs.length →
      xs.getD best.1 0 = best.2 →
      xs.getD (argmaxAux (xs.drop i) i best).1 0
        = (argmaxAux (xs.drop i) i best).2 := by
  intro m
  induction m with
  | zero =>
    intro i best hlen hbest
    rw [List.drop_eq_nil_of_le (by omega), argmaxAux]
    exact hbest
  | succ m2 ih =>
    intro i best hlen hbest
    have hi : i < xs.length := by omega
    rw [List.drop_eq_getElem_cons hi, argmaxAux]
    by_cases hb : best.2 < xs[i]
    · rw [if_pos hb]
      have := ih (i + 1) (i, xs[i]) (by omega) (List.getD_eq_getElem xs 0 hi)
      simpa using this
    · rw [if_neg hb]
      have := ih (i + 1) best (by omega) hbest
      simpa using this

/-- The scan result dominates the running value and every scanned
element. -/
theorem argmaxAux_ge :
    ∀ (l : List ℚ) (i : ℕ) (best : ℕ × ℚ),
      best.2 ≤ (argmaxAux l i best).2 ∧
      ∀ x ∈ l, x ≤ (argmaxAux l i best).2 := by
  intro l
  induction l with
  | nil => intro i best; exact ⟨le_rfl, by intro x hx; simp at hx⟩
  | cons y rest ih =>
    intro i best
    rw [argmaxAux]
    by_cases hb : best.2 < y
    · rw [if_pos hb]
      obtain ⟨h1, h2⟩ := ih (i + 1) (i, y)
      refine ⟨le_of_lt (lt_of_lt_of_le hb h1), ?_⟩
      intro x hx
      rcases List.mem_cons.mp hx with rfl | hx
      · exact h1
      · exact h2 x hx
    · rw [if_neg hb]
      obtain ⟨h1, h2⟩ := ih (i + 1) best
      refine ⟨h1, ?_⟩
      intro x hx
      rcases List.mem_cons.mp hx with rfl | hx
      · exact le_trans (not_lt.mp hb) h1
      · exact h2 x hx

/-- `argmax` of a non-empty list is a valid index. -/
theorem argmax_lt_length (xs : List ℚ) (h : xs ≠ []) :
    argmax xs < xs.length := by
  cases xs with
  | nil => exact absurd rfl h
  | cons x rest =>
    rw [argmax]
    have h2 := argmaxAux_lt rest 1 (0, x) (by norm_num)
    simp only [List.length_cons]
    omega

/-- The entry at `argmax` dominates every entry: `argmax` really is the
index of a maximum. -/
theorem argmax_getD_max (xs : List ℚ) (j : ℕ) (hj : j < xs.length) :
    xs.getD j 0 ≤ xs.getD (argmax xs) 0 := by
  cases xs with
  | nil => simp at hj
  | cons x rest =>
    rw [argmax]
    have hval : (x :: rest).getD (argmaxAux rest 1 (0, x)).1 0
        = (argmaxAux rest 1 (0, x)).2 := by
      have h3 := argmaxAux_getD (x :: rest) rest.length 1 (0, x)
        (by simp only [List.length_cons]; omega) (by simp)
      simpa using h3
    rw [hval]
    obtain ⟨h1, h2⟩ := argmaxAux_ge rest 1 (0, x)
    cases j with
    | zero => simpa using h1
    | succ j2 =>
      have hj2 : j2 < rest.length := by simpa using hj
      have hmem : rest.getD j2 0 ∈ rest := by
        rw [List.getD_eq_getElem rest 0 hj2]
        exact List.getElem_mem hj2
      simpa using h2 _ hmem

/-- Shifted sum of squares, expanded into moment sums. -/
theorem sum_sq_shift (a : ℚ) :
    ∀ xs : List ℚ, (xs.map fun x => (a - x) * (a - x)).sum
      = (xs.length : ℚ) * (a * a) - 2 * a * xs.sum
        + (xs.map fun x => x * x).sum := by
  intro xs
  induction xs with
  | nil => simp
  | cons x rest ih =>
    simp only [List.map_cons, List.sum_cons, List.length_cons]
    push_cast
    linear_combination ih

/-- The numerator of `n` times the sample variance of a list of values:
this is what `lsqDen` computes on the first coordinates. -/
def varNum (xs : List ℚ) : ℚ :=
  (xs.length : ℚ) * (xs.map fun x => x * x).sum - xs.sum * xs.sum

/-- Recurrence of `varNum` along a cons. -/
theorem varNum_cons (a : ℚ) (xs : List ℚ) :
    varNum (a :: xs) = varNum xs + (xs.map fun x => (a - x) * (a - x)).sum := by
  rw [varNum, varNum, sum_sq_shift]
  simp only [List.map_cons, List.sum_cons, List.length_cons]
  push_cast
  ring

/-- `varNum` is non-negative (Cauchy–Schwarz for counting measure). -/
theorem varNum_nonneg : ∀ xs : List ℚ, 0 ≤ varNum xs := by
  intro xs
  induction xs with
  | nil => simp [varNum]
  | cons a rest ih =>
    rw [varNum_cons]
    have hsq : 0 ≤ (rest.map fun x => (a - x) * (a - x)).sum := by
      refine List.sum_nonneg ?_
      intro y hy
      obtain ⟨x, _, rfl⟩ := List.mem_map.mp hy
      exact mul_self_nonneg _
    linarith

/-- `varNum` is positive as soon as two entries differ. -/
theorem varNum_pos (a b : ℚ) (rest : List ℚ) (hab : a ≠ b) :
    0 < varNum (a :: b :: rest) := by
  rw [varNum_cons]
  have h1 : 0 ≤ varNum (b :: rest) := varNum_nonneg _
  have h2 : 0 < (a - b) * (a - b) := mul_self_pos.mpr (sub_ne_zero.mpr hab)
  have h3 : 0 ≤ (rest.map fun x => (a - x) * (a - x)).sum := by
    refine List.sum_nonneg ?_
    intro y hy
    obtain ⟨x, _, rfl⟩ := List.mem_map.mp hy
    exact mul_self_nonneg _
  simp only [List.map_cons, List.sum_cons]
  linarith

/-- `sX` as a sum over the first coordinates. -/
theorem sX_fst (pts : List (ℚ × ℚ)) : sX pts = (pts.map Prod.fst).sum := rfl

/-- `sXX` as a sum over the first coordinates. -/
theorem sXX_fst (pts : List (ℚ × ℚ)) :
    sXX pts = ((pts.map Prod.fst).map fun x => x * x).sum := by
  rw [sXX, List.map_map]
  rfl

/-- On zipped coordinate lists of equal length, the least-squares
determinant is the variance numerator of the abscissas. -/
theorem lsqDen_zip (xs ys : List ℚ) (h : xs.length = ys.length) :
    lsqDen (xs.zip ys) = varNum xs := by
  have hle : xs.length ≤ ys.length := le_of_eq h
  rw [lsqDen, sXX_fst, sX_fst, List.map_fst_zip xs ys hle, varNum,
    List.length_zip, min_eq_left hle]

/-! ## Exact fit of linear data -/

/-- Abscissa sum over exactly linear points. -/
theorem sX_linear (k c : ℚ) : ∀ xs : List ℚ,
    sX (xs.map fun x => (x, k * x + c)) = xs.sum := by
  intro xs
  induction xs with
  | nil => simp [sX]
  | cons x rest ih =>
    simp only [sX, List.map_cons, List.sum_cons] at *
    rw [ih]

/-- Abscissa square sum over exactly linear points. -/
theorem sXX_linear (k c : ℚ) : ∀ xs : List ℚ,
    sXX (xs.map fun x => (x, k * x + c)) = (xs.map fun x => x * x).sum := by
  intro xs
  induction xs with
  | nil => simp [sXX]
  | cons x rest ih =>
    simp only [sXX, List.map_cons, List.sum_cons] at *
    rw [ih]

/-- Ordinate sum over exactly linear points. -/
theorem sY_linear (k c : ℚ) : ∀ xs : List ℚ,
    sY (xs.map fun x => (x, k * x + c)) = k * xs.sum + c * xs.length := by
  intro xs
  induction xs with
  | nil => simp [sY]
  | cons x rest ih =>
    simp only [sY, List.map_cons, List.sum_cons, List.length_cons] at *
    push_cast
    linear_combination ih

/-- Mixed sum over exactly linear points. -/
theorem sXY_linear (k c : ℚ) : ∀ xs : List ℚ,
    sXY (xs.map fun x => (x, k * x + c))
      = k * (xs.map fun x => x * x).sum + c * xs.sum := by
  intro xs
  induction xs with
  | nil => simp [sXY]
  | cons x rest ih =>
    simp only [sXY, List.map_cons, List.sum_cons] at *
    linear_combination ih

/-- Zipping a list with its image under a linear map. -/
theorem zip_linear (k c : ℚ) : ∀ xs : List ℚ,
    xs.zip (xs.map fun x => k * x + c) = xs.map fun x => (x, k * x + c) := by
  intro xs
  induction xs with
  | nil => rfl
  | cons x rest ih => simp only [List.map_cons, List.zip_cons_cons, ih]

/-- On exactly linear data the degree-1 least-squares fit recovers the
slope and intercept exactly. -/
theorem polyfitP_linear (k c : ℚ) (xs : List ℚ)
    (hD : lsqDen (xs.map fun x => (x, k * x + c)) ≠ 0) :
    polyfitP (xs.map fun x => (x, k * x + c)) = (k, c) := by
  have hnum1 : ((xs.map fun x => (x, k * x + c)).length : ℚ)
        * sXY (xs.map fun x => (x, k * x + c))
        - sX (xs.map fun x => (x, k * x + c))
          * sY (xs.map fun x => (x, k * x + c))
      = k * lsqDen (xs.map fun x => (x, k * x + c)) := by
    rw [lsqDen, sX_linear, sXX_linear, sY_linear, sXY_linear, List.length_map]
    ring
  have hnum2 : sXX (xs.map fun x => (x, k * x + c))
        * sY (xs.map fun x => (x, k * x + c))
        - sX (xs.map fun x => (x, k * x + c))
          * sXY (xs.map fun x => (x, k * x + c))
      = c * lsqDen (xs.map fun x => (x, k * x + c)) := by
    rw [lsqDen, sX_linear, sXX_linear, sY_linear, sXY_linear, List.length_map]
    ring
  rw [polyfitP, hnum1, hnum2, mul_div_assoc, mul_div_assoc, div_self hD,
    mul_one, mul_one]

/-! ## Claim C1: the fit window of `_find_zero_error` -/

/-- C1 counterexample: on a concrete curve with the steepest gradient at
index 3 of 8 points, the source's half-open slice `[0:6]` (3 points below
the center, 2 above) gives the estimate `20/33`, while the spec's
symmetric window of 3 points on each side (indices 0 through 6) gives
`1/2`: the code does not fit over a symmetric window. -/
theorem find_zero_window_cex :
    _find_zero_error [0,1,2,3,4,5,6,7] [0,1,2,10,18,19,20,21]
        = Except.ok (20/33) ∧
    zeroEstimateSymmetric [0,1,2,3,4,5,6,7] [0,1,2,10,18,19,20,21] = 1/2 ∧
    (20/33 : ℚ) ≠ 1/2 := by
  refine ⟨?_, ?_, by norm_num⟩
  · norm_num [_find_zero_error, zeroEstimate, fitWindow, np_gradient,
      argmax, argmaxAux, List.range_succ, polyfit1, polyfitP, lsqDen,
      sX, sY, sXX, sXY]
  · norm_num [zeroEstimateSymmetric, np_gradient, argmax, argmaxAux,
      List.range_succ, polyfit1, polyfitP, lsqDen, sX, sY, sXX, sXY]

/-- Length of the gradient of an array of at least two samples. -/
theorem np_gradient_length (ys : List ℚ) (h : 2 ≤ ys.length) :
    (np_gradient ys).length = ys.length := by
  rw [np_gradient, if_neg (by omega)]
  simp

/-- Positive variance numerator for a strictly increasing list of at
least two entries. -/
theorem varNum_pos_of_pairwise (xs : List ℚ) (h2 : 2 ≤ xs.length)
    (hp : xs.Pairwise (· < ·)) : 0 < varNum xs := by
  cases xs with
  | nil => simp at h2
  | cons a tail =>
    cases tail with
    | nil => simp at h2
    | cons b rest =>
      have hab : a < b := (List.pairwise_cons.mp hp).1 b (List.mem_cons_self b rest)
      exact varNum_pos a b rest (ne_of_lt hab)

/-- C1 (amended): `_find_zero_error` centers on the index of the maximum
gradient entry (proved maximal), fits over the half-open slice
`[max(center-3,0) : min(len, center+3))` of the two lists — up to 3
points below the center and up to 2 above it, clipped to the bounds, not
a symmetric 3-point-each-side window — by a genuine least-squares fit
(the fitted line minimizes the residual sum of squares), and its
pre-validation estimate is `-intercept/slope` of that fit. -/
theorem find_zero_fit_spec (delays errors : List ℚ)
    (h2 : 2 ≤ errors.length)
    (hD : 0 < lsqDen
      ((fitWindow delays errors).1.zip (fitWindow delays errors).2)) :
    (∀ j, j < (np_gradient errors).length →
      (np_gradient errors).getD j 0
        ≤ (np_gradient errors).getD (argmax (np_gradient errors)) 0) ∧
    fitWindow delays errors
      = ((delays.drop (argmax (np_gradient errors) - 3)).take
            (min errors.length (argmax (np_gradient errors) + 3)
              - (argmax (np_gradient errors) - 3)),
         (errors.drop (argmax (np_gradient errors) - 3)).take
            (min errors.length (argmax (np_gradient errors) + 3)
              - (argmax (np_gradient errors) - 3))) ∧
    (∀ m b,
      RSS ((fitWindow delays errors).1.zip (fitWindow delays errors).2)
        (polyfit1 (fitWindow delays errors).1 (fitWindow delays errors).2).1
        (polyfit1 (fitWindow delays errors).1 (fitWindow delays errors).2).2
      ≤ RSS ((fitWindow delays errors).1.zip (fitWindow delays errors).2) m b) ∧
    zeroEstimate delays errors
      = (-(polyfit1 (fitWindow delays errors).1 (fitWindow delays errors).2).2)
        / (polyfit1 (fitWindow delays errors).1 (fitWindow delays errors).2).1 := by
  refine ⟨fun j hj => argmax_getD_max _ j hj, ?_, ?_, rfl⟩
  · have heq : (if errors.length < argmax (np_gradient errors) + 3
          then errors.length else argmax (np_gradient errors) + 3)
        = min errors.length (argmax (np_gradient errors) + 3) := by
      split_ifs with h <;> omega
    have heq2 : (if argmax (np_gradient errors) < 3 then 0
          else argmax (np_gradient errors) - 3)
        = argmax (np_gradient errors) - 3 := by
      split_ifs with h <;> omega
    simp only [fitWindow, heq, heq2]
  · intro m b
    simp only [polyfit1]
    exact polyfitP_optimal _ hD m b

/-- Witness for C1: at the counterexample curve the hypotheses hold and
the fitted line beats the zero line in residual sum of squares. -/
theorem find_zero_fit_spec_witness :
    RSS ((fitWindow [0,1,2,3,4,5,6,7] [0,1,2,10,18,19,20,21]).1.zip
          (fitWindow [0,1,2,3,4,5,6,7] [0,1,2,10,18,19,20,21]).2)
        (polyfit1 (fitWindow [0,1,2,3,4,5,6,7] [0,1,2,10,18,19,20,21]).1
          (fitWindow [0,1,2,3,4,5,6,7] [0,1,2,10,18,19,20,21]).2).1
        (polyfit1 (fitWindow [0,1,2,3,4,5,6,7] [0,1,2,10,18,19,20,21]).1
          (fitWindow [0,1,2,3,4,5,6,7] [0,1,2,10,18,19,20,21]).2).2
      ≤ RSS ((fitWindow [0,1,2,3,4,5,6,7] [0,1,2,10,18,19,20,21]).1.zip
          (fitWindow [0,1,2,3,4,5,6,7] [0,1,2,10,18,19,20,21]).2) 0 0 :=
  (find_zero_fit_spec [0,1,2,3,4,5,6,7] [0,1,2,10,18,19,20,21]
    (by norm_num)
    (by norm_num [fitWindow, np_gradient, argmax, argmaxAux,
      List.range_succ, lsqDen, sX, sXX])).2.2.1 0 0

/-! ## Claim C8: exact recovery on linear error curves -/

/-- C8: on an exactly linear error curve `error = k * (delay - d0)` with
nonzero slope of either sign, sampled at strictly increasing delays, with
`d0` strictly inside the measured span and `d0 ≥ 0`, `_find_zero_error`
returns `d0` exactly and raises no error. -/
theorem find_zero_linear (k d0 : ℚ) (delays errors : List ℚ)
    (hk : k ≠ 0)
    (hmono : delays.Pairwise (· < ·))
    (h2 : 2 ≤ delays.length)
    (herr : errors = delays.map fun d => k * (d - d0))
    (hlo : delays.headD 0 < d0) (hhi : d0 < delays.getLastD 0)
    (hd0 : 0 ≤ d0) :
    _find_zero_error delays errors = Except.ok d0 := by
  have hlen : errors.length = delays.length := by rw [herr, List.length_map]
  have h2e : 2 ≤ errors.length := by omega
  set c : ℚ := -(k * d0) with hc
  have herr2 : errors = delays.map fun d => k * d + c := by
    rw [herr]
    refine List.map_congr_left ?_
    intro d _
    rw [hc]; ring
  set grad := np_gradient errors with hgrad
  set center := argmax grad with hcenter
  set fitEnd := if errors.length < center + 3 then errors.length
    else center + 3 with hfitEnd
  set fitStart := if center < 3 then 0 else center - 3 with hfitStart
  set xs := (delays.drop fitStart).take (fitEnd - fitStart) with hxs
  set ys := (errors.drop fitStart).take (fitEnd - fitStart) with hys
  have hfw : fitWindow delays errors = (xs, ys) := rfl
  have hgradlen : grad.length = errors.length := by
    rw [hgrad]; exact np_gradient_length errors h2e
  have hce : center < errors.length := by
    rw [hcenter]
    have hne : grad ≠ [] := by
      intro hnil
      rw [hnil] at hgradlen
      simp at hgradlen
      omega
    have := argmax_lt_length grad hne
    omega
  have hfs_le : fitStart ≤ center := by rw [hfitStart]; split_ifs <;> omega
  have hfe_le : fitEnd ≤ errors.length := by rw [hfitEnd]; split_ifs <;> omega
  have hwin2 : 2 ≤ fitEnd - fitStart := by
    rw [hfitEnd, hfitStart]; split_ifs <;> omega
  have hxslen : xs.length = fitEnd - fitStart := by
    rw [hxs, List.length_take, List.length_drop]
    omega
  have hys2 : ys = xs.map fun x => k * x + c := by
    rw [hys, hxs, herr2, ← List.map_drop, ← List.map_take]
  have hyslen : xs.length = ys.length := by rw [hys2, List.length_map]
  have hxp : xs.Pairwise (· < ·) := by
    rw [hxs]
    exact List.Pairwise.sublist
      ((List.take_sublist _ _).trans (List.drop_sublist _ _)) hmono
  have hxlen2 : 2 ≤ xs.length := by omega
  have hpts : xs.zip ys = xs.map fun x => (x, k * x + c) := by
    rw [hys2, zip_linear]
  have hDpos : 0 < lsqDen (xs.zip ys) := by
    rw [lsqDen_zip xs ys hyslen]
    exact varNum_pos_of_pairwise xs hxlen2 hxp
  have hfit : polyfit1 xs ys = (k, c) := by
    rw [polyfit1, hpts]
    refine polyfitP_linear k c xs ?_
    rw [← hpts]
    exact ne_of_gt hDpos
  have hz : zeroEstimate delays errors = d0 := by
    simp only [zeroEstimate, hfw, hfit]
    rw [hc, neg_neg]
    exact mul_div_cancel_left₀ d0 hk
  simp only [_find_zero_error, hz]
  rw [if_neg (by push_neg; exact ⟨hlo.le, hhi.le⟩), if_neg (not_lt.mpr hd0)]

/-- Witness for C8: the linear curve `error = 2 * (delay - 3/2)` on
delays `0, 1, 2, 3`; the estimator returns `3/2` exactly. -/
theorem find_zero_linear_witness :
    _find_zero_error [0, 1, 2, 3] [-3, -1, 1, 3] = Except.ok (3/2) :=
  find_zero_linear 2 (3/2) [0, 1, 2, 3] [-3, -1, 1, 3]
    (by norm_num)
    (by norm_num)
    (by norm_num)
    (by norm_num)
    (by norm_num) (by norm_num) (by norm_num)

/-- Witness for C7: on the linear curve through `(-2,-1) … (1,2)` the
estimate `-1` is inside the span `[-2, 1]` and negative, and the distinct
negative-estimate error is raised. -/
theorem find_zero_validation_witness :
    _find_zero_error [-2, -1, 0, 1] [-1, 0, 1, 2]
        = Except.error AutoErr.zeroNegative :=
  (find_zero_validation [-2, -1, 0, 1] [-1, 0, 1, 2]
      (by norm_num) (by norm_num)).2.1
    (by norm_num [zeroEstimate, fitWindow, np_gradient, argmax, argmaxAux,
      List.range_succ, polyfit1, polyfitP, lsqDen, sX, sY, sXX, sXY])
